import Mathlib

/-!
# Verification of the markdown-host core

Shallow embedding of the markdown-host repository (TypeScript) in Lean 4.

Strings are modelled as their `List Char` data; all JavaScript string
operations used by the source (`split`, `replace` with the concrete regexes
appearing in the source, `toLowerCase`, `startsWith`, `endsWith`, `slice`,
`pop`, `shift`, `join`, `filter(Boolean)`) are given explicit executable
definitions on `List Char` and the embedded functions are built from them
exactly as the source composes them.  The documents and directories live in
an explicit filesystem tree model; external collaborators (the Shiki
highlighter's `codeToHtml`, the platform's `btoa`) are passed in as function
parameters.
-/

namespace MdHost

/-! ## JavaScript string-operation primitives on `List Char` -/

/-- JS `s.split(sep)` for a single-character separator, JS semantics:
`"".split(c) = [""]`, separators at the ends produce empty pieces. -/
def splitOnChar (sep : Char) : List Char → List (List Char)
  | [] => [[]]
  | c :: t =>
    let r := splitOnChar sep t
    if c = sep then [] :: r
    else (c :: r.headD []) :: r.tail

/-- JS `s.startsWith(pre)`. -/
def strStartsWithL (l pre : List Char) : Bool := pre.isPrefixOf l

/-- JS `s.endsWith(suf)`. -/
def strEndsWithL (l suf : List Char) : Bool := suf.isSuffixOf l

/-- JS `s.toLowerCase()` (ASCII, which is all the source manipulates). -/
def toLowerL (l : List Char) : List Char := l.map Char.toLower

/-- Last `n` characters of `s` (used for suffix tests). -/
def takeRightL (l : List Char) (n : Nat) : List Char := l.drop (l.length - n)

/-- Helper for `collapseRunsL`: the Boolean records whether we are inside a
run of matching characters (whose first character has already produced the
replacement). -/
def collapseRunsAux (p : Char → Bool) (r : Char) : Bool → List Char → List Char
  | _, [] => []
  | inRun, c :: t =>
    if p c then
      (if inRun then collapseRunsAux p r true t else r :: collapseRunsAux p r true t)
    else c :: collapseRunsAux p r false t

/-- Replace every maximal run of characters satisfying `p` by the single
character `r` (the shape of `replace(/X+/g, "r")`). -/
def collapseRunsL (p : Char → Bool) (r : Char) (l : List Char) : List Char :=
  collapseRunsAux p r false l

/-! ## PathIdentity: `filePathToUrlPath` (src/content/filesystem.ts) -/

/-- Does the string end in `.md` case-insensitively?  This is the guard of
the source's `replace(/\.md$/i, "")`. -/
def hasMdSuffix (l : List Char) : Bool := toLowerL (takeRightL l 3) == ".md".data

/-- JS `replace(/\.md$/i, "")`. -/
def stripMdL (l : List Char) : List Char :=
  if hasMdSuffix l then l.take (l.length - 3) else l

/-- JS `replace(/\/?index$/, "")`: remove a trailing `index`, together with a
preceding `/` when present. -/
def dropIndexSuffixL (l : List Char) : List Char :=
  if strEndsWithL l "/index".data then l.take (l.length - 6)
  else if strEndsWithL l "index".data then l.take (l.length - 5)
  else l

/-- Function `filePathToUrlPath` from src/content/filesystem.ts:

    let urlPath = filePath.replace(/\.md$/i, "");
    if (urlPath.endsWith("/index") || urlPath === "index") {
      urlPath = urlPath.replace(/\/?index$/, "") || "/";
    }
    return urlPath.startsWith("/") ? urlPath : `/${urlPath}`;
-/
def filePathToUrlPathL (filePath : List Char) : List Char :=
  let u := stripMdL filePath
  let u :=
    if strEndsWithL u "/index".data || u == "index".data then
      (let r := dropIndexSuffixL u; if r.isEmpty then "/".data else r)
    else u
  if strStartsWithL u "/".data then u else '/' :: u

/-- String-level wrapper for `filePathToUrlPath`. -/
def filePathToUrlPath (filePath : String) : String := ⟨filePathToUrlPathL filePath.data⟩

/-! ## PathIdentity: `resolveLink` (src/render/markdown.ts) -/

/-- JS `currentPath.replace(/\/[^/]*$/, "")`: drop the last `/` and everything
after it; a string with no `/` is unchanged (the regex does not match). -/
def dropLastSegmentL (l : List Char) : List Char :=
  if l.contains '/' then ((l.reverse.dropWhile (· ≠ '/')).drop 1).reverse else l

/-- The `while (hrefParts[0] === "..") { parts.pop(); hrefParts.shift(); }`
loop: `pop` on an empty array is a no-op, so ascent clamps at the root. -/
def popParents : List (List Char) → List (List Char) → List (List Char) × List (List Char)
  | parts, h :: t => if h = "..".data then popParents parts.dropLast t else (parts, h :: t)
  | parts, [] => (parts, [])

/-- Function `resolveLink` from src/render/markdown.ts, transliterated clause by
clause (external/anchor passthrough, absolute strip, `./` and `../`
resolution against the current path's parent, `.md` strip, fragment
re-attachment, slash-run collapse). -/
def resolveLinkL (href currentPath : List Char) : List Char :=
  if strStartsWithL href "http://".data || strStartsWithL href "https://".data then href
  else if strStartsWithL href "#".data then href
  else if strStartsWithL href "/".data then stripMdL href
  else
    let currentDir := if currentPath = "/".data then [] else dropLastSegmentL currentPath
    let resolved :=
      if strStartsWithL href "./".data then currentDir ++ '/' :: href.drop 2
      else if strStartsWithL href "../".data then
        let parts := (splitOnChar '/' currentDir).filter (· ≠ [])
        let pr := popParents parts (splitOnChar '/' href)
        '/' :: List.intercalate "/".data (pr.1 ++ pr.2)
      else currentDir ++ '/' :: href
    let resolved := stripMdL resolved
    let ps := splitOnChar '#' resolved
    let path := ps.headD []
    let anchor := ps.get? 1
    let cp := collapseRunsL (· = '/') '/' path
    let cleanPath := if cp.isEmpty then "/".data else cp
    match anchor with
    | some a => if a.isEmpty then cleanPath else cleanPath ++ '#' :: a
    | none => cleanPath

/-- String-level wrapper for `resolveLink`. -/
def resolveLink (href currentPath : String) : String :=
  ⟨resolveLinkL href.data currentPath.data⟩

/-! ## PathIdentity: slugs (src/cli.ts) -/

/-- Characters kept by the slug regex `[^a-z0-9]` complement (applied after
lowercasing). -/
def isSlugChar (c : Char) : Bool := ('a' ≤ c && c ≤ 'z') || ('0' ≤ c && c ≤ '9')

/-- JS `replace(/^-|-$/g, "")`: removes one leading and one trailing dash. -/
def trimDashL (l : List Char) : List Char :=
  let l1 := match l with | '-' :: t => t | _ => l
  if l1.getLast? = some '-' then l1.dropLast else l1

/-- Function `slugify` from src/cli.ts:
`segments.join("-").toLowerCase().replace(/[^a-z0-9]+/g, "-").replace(/^-|-$/g, "")`. -/
def slugifyCli (segments : List (List Char)) : List Char :=
  trimDashL (collapseRunsL (fun c => ¬ isSlugChar c) '-' (toLowerL (List.intercalate "-".data segments)))

/-- JS `p.split("/").filter(Boolean).reverse()`: the segments of an absolute
path, leaf first. -/
def pathSegmentsOf (p : List Char) : List (List Char) :=
  ((splitOnChar '/' p).filter (· ≠ [])).reverse

/-- The slug a path currently produces when using its first `c` (leaf-side)
segments: `slugify(segments.slice(0, count).reverse())`. -/
def slugAt (segs : List (List Char)) (c : Nat) : List Char :=
  slugifyCli (segs.take c).reverse

/-- One slug per path for the current segment counts. -/
def currentSlugs (pss : List (List (List Char))) (counts : List Nat) : List (List Char) :=
  (pss.zip counts).map (fun sc => slugAt sc.1 sc.2)

/-- The loop guard of `generateUniqueSlugs`: some slug occurs at least
twice (some slug group has more than one index). -/
def hasConflicts (pss : List (List (List Char))) (counts : List Nat) : Bool :=
  let sl := currentSlugs pss counts
  sl.any (fun s => 2 ≤ sl.count s)

/-- One iteration of the collision-resolution loop body: every index whose
slug collides gets its segment count incremented, but only while more
segments are available (`segmentCounts[i] < pathSegments[i].length`). -/
def stepCounts (pss : List (List (List Char))) (counts : List Nat) : List Nat :=
  let sl := currentSlugs pss counts
  (pss.zip counts).map (fun sc =>
    if 2 ≤ sl.count (slugAt sc.1 sc.2) && sc.2 < sc.1.length then sc.2 + 1 else sc.2)

/-- The `while (hasConflicts)` loop of `generateUniqueSlugs`, made total
with an explicit fuel parameter: `none` means the loop has not terminated
within `fuel` iterations. -/
def slugLoop (pss : List (List (List Char))) : Nat → List Nat → Option (List Nat)
  | 0, _ => none
  | fuel + 1, counts =>
    if hasConflicts pss counts then slugLoop pss fuel (stepCounts pss counts)
    else some counts

/-- Function `generateUniqueSlugs` from src/cli.ts with explicit fuel: starts every
path at one (leaf) segment, runs the collision loop, and on exit builds the
final path→slug association (duplicates retained, later entries shadowing
earlier ones in any map built from the result). -/
def generateUniqueSlugsFuel (paths : List (List Char)) (fuel : Nat) :
    Option (List (List Char × List Char)) :=
  let pss := paths.map pathSegmentsOf
  match slugLoop pss fuel (paths.map fun _ => 1) with
  | none => none
  | some counts =>
      some (paths.zip ((pss.zip counts).map (fun sc => slugAt sc.1 sc.2)))

/-! ## DisplayNameFormatter (src/content/filesystem.ts: `humanize`, `isAcronym`) -/

/-- Character class `\w` of the source's regexes (ASCII input). -/
def isWordChar (c : Char) : Bool := c.isAlphanum || c = '_'

/-- The `VOWEL_ACRONYMS` set from src/content/filesystem.ts. -/
def vowelAcronyms : List (List Char) :=
  ["ai", "api", "ui", "ux", "uri", "url", "io", "os",
   "aws", "gcp", "ide", "oauth", "saas", "paas", "iaas",
   "uuid", "guid", "yaml", "toml",
   "html", "css", "json", "xml", "sql", "graphql", "rest",
   "http", "https", "tcp", "udp", "ip", "dns", "ssl", "tls",
   "jwt", "ssh", "seo", "cms", "crm", "erp", "iot",
   "pdf", "svg", "png", "gif", "jpg", "jpeg", "csv", "md"].map String.data

/-- Function `isAcronym`: explicit list membership, or a 2-3 letter word with no
vowel (`/[aeiou]/`). -/
def isAcronym (w : List Char) : Bool :=
  let lw := toLowerL w
  vowelAcronyms.contains lw ||
    (2 ≤ lw.length && lw.length ≤ 3 &&
      !(lw.any fun c => c = 'a' || c = 'e' || c = 'i' || c = 'o' || c = 'u'))

/-- JS `replace(/\b\w/g, c => c.toUpperCase())`: uppercase each word-initial
character (a `\w` character not preceded by a `\w` character). -/
def upperWordStarts : Bool → List Char → List Char
  | _, [] => []
  | prev, c :: t =>
    (if !prev && isWordChar c then c.toUpper else c) :: upperWordStarts (isWordChar c) t

/-- Helper for `mapWordRuns`: `cur` is the current maximal `\w` run,
reversed; it is flushed through `f` at each word boundary. -/
def mapWordRunsAux (f : List Char → List Char) (cur : List Char) : List Char → List Char
  | [] => if cur.isEmpty then [] else f cur.reverse
  | c :: t =>
    if isWordChar c then mapWordRunsAux f (c :: cur) t
    else (if cur.isEmpty then [] else f cur.reverse) ++ c :: mapWordRunsAux f [] t

/-- JS `replace(/\b\w+\b/g, f)`: apply `f` to each maximal `\w` run. -/
def mapWordRuns (f : List Char → List Char) (l : List Char) : List Char :=
  mapWordRunsAux f [] l

/-- Function `humanize` from src/content/filesystem.ts:
separators to spaces, title-case word starts, acronyms fully uppercased. -/
def humanizeL (filename : List Char) : List Char :=
  mapWordRuns (fun w => if isAcronym w then w.map Char.toUpper else w)
    (upperWordStarts false (filename.map fun c => if c = '-' || c = '_' then ' ' else c))

/-- String-level wrapper for `humanize`. -/
def humanize (filename : String) : String := ⟨humanizeL filename.data⟩

/-! ## NavNode model (src/content/types.ts) and the sibling comparator -/

inductive NodeKind where
  | file
  | directory
deriving DecidableEq, Repr

/-- A navigation-tree node (`NavNode` in src/content/types.ts). -/
structure NavNode where
  name : String
  path : String
  type : NodeKind
  children : List NavNode := []
  order : Option Int := none

/-- Three-way comparison of char lists by code point (the base of the
`localeCompare` model). -/
def cmpCharListL : List Char → List Char → Int
  | [], [] => 0
  | [], _ :: _ => -1
  | _ :: _, [] => 1
  | a :: as, b :: bs => if a < b then -1 else if b < a then 1 else cmpCharListL as bs

/-- Model of ECMA-402 `a.localeCompare(b)` restricted to ASCII: primary
comparison is case-insensitive; ties are broken deterministically.  (This is
an external platform collaborator; only its comparator signature matters to
the embedded comparator.) -/
def localeCompareL (a b : List Char) : Int :=
  let c := cmpCharListL (toLowerL a) (toLowerL b)
  if c ≠ 0 then c else cmpCharListL a b

/-- Constant `indexNames` from `scanDirectory`. -/
def indexNames : List (List Char) := ["index".data, "readme".data, "overview".data]

/-- JS `a.path.split("/").pop()?.toLowerCase() || ""`. -/
def lastSegLower (p : String) : List Char := toLowerL ((splitOnChar '/' p.data).getLastD [])

/-- Predicate `aIsIndex`: a file node whose URL path's final segment is a reserved
index name. -/
def isIdxNode (a : NavNode) : Bool :=
  a.type == NodeKind.file && indexNames.contains (lastSegLower a.path)

/-- Position of `x` in `l` (= the list's length when absent; the source's
`indexNames.indexOf(...)` is only consulted when the segment is a member,
where the two notions agree). -/
def listIdxOf (x : List Char) : List (List Char) → Nat
  | [] => 0
  | y :: t => if y = x then 0 else 1 + listIdxOf x t

/-- JS `indexNames.indexOf(...)`. -/
def idxOfNode (a : NavNode) : Nat := listIdxOf (lastSegLower a.path) indexNames

/-- The sibling comparator passed to `nodes.sort` in `scanDirectory`,
clause for clause: index files first, priority among index files,
directories before files, explicit `order` ascending with ordered nodes
first, then `localeCompare` of display names. -/
def cmpNodes (a b : NavNode) : Int :=
  let aI := isIdxNode a
  let bI := isIdxNode b
  if aI && !bI then -1
  else if bI && !aI then 1
  else if aI && bI then (idxOfNode a : Int) - (idxOfNode b : Int)
  else if a.type != b.type then (if a.type == NodeKind.directory then -1 else 1)
  else
    match a.order, b.order with
    | some x, some y => x - y
    | some _, none => -1
    | none, some _ => 1
    | none, none => localeCompareL a.name.data b.name.data

/-- Stable insertion of a node into a list sorted by `cmpNodes`. -/
def orderedInsertNode (x : NavNode) : List NavNode → List NavNode
  | [] => [x]
  | y :: l => if cmpNodes x y ≤ 0 then x :: y :: l else y :: orderedInsertNode x l

/-- JS `nodes.sort(comparator)`: modelled as the standard stable insertion
sort driven by `cmpNodes` (ECMAScript `Array.prototype.sort` is required to
be stable and consistent with the comparator). -/
def sortNodes : List NavNode → List NavNode
  | [] => []
  | a :: l => orderedInsertNode a (sortNodes l)

/-! ## Filesystem model and `FilesystemSource.scanDirectory` -/

/-- Parsed frontmatter (`Frontmatter` in src/content/types.ts; only the
recognized keys participate in the embedded logic). -/
structure Frontmatter where
  title : Option String := none
  order : Option Int := none
deriving DecidableEq, Repr

/-- Structure `FileContent` from src/content/types.ts (the result of gray-matter on
the raw bytes). -/
structure FileContent where
  raw : String := ""
  frontmatter : Frontmatter := {}
  body : String := ""
deriving DecidableEq, Repr

/-- A directory-tree model of the Storage collaborator.  A file carries
`none` when reading or metadata parsing fails (`readFileContent`'s `catch`
returns null in that case). -/
inductive FSEntry where
  | file (name : String) (content : Option FileContent)
  | dir (name : String) (entries : List FSEntry)
deriving Repr

/-- Node's `path.basename(name, ".md")`: strips a literal (case-sensitive)
`.md` suffix, leaving a name that is exactly `.md` alone. -/
def basenameMd (name : String) : String :=
  if strEndsWithL name.data ".md".data && name.data.length > 3
  then ⟨name.data.take (name.data.length - 3)⟩ else name

/-- Node's `path.extname` on a bare entry name: the substring from the last
`.`, empty when there is no `.` or when the only `.` is the leading
character. -/
def extnameOf (name : List Char) : List Char :=
  let after := (name.reverse.takeWhile (· ≠ '.')).reverse
  if after.length = name.length then []
  else if name.length - after.length - 1 = 0 then []
  else '.' :: after

/-- JS `relativePath ? relativePath + "/" + name : name`. -/
def joinRel (rel name : String) : String := if rel = "" then name else rel ++ "/" ++ name

/-- The display name of a file node:
`content?.frontmatter.title || humanize(nameWithoutExt)` (an empty title is
falsy). -/
def displayName (content : Option FileContent) (nameWithoutExt : String) : String :=
  match content with
  | some fc =>
    match fc.frontmatter.title with
    | some t => if t = "" then humanize nameWithoutExt else t
    | none => humanize nameWithoutExt
  | none => humanize nameWithoutExt

mutual

/-- Function `scanDirectory`'s handling of one directory entry: hidden entries are
skipped; a subdirectory is scanned recursively and kept only when it has
visible children (its `pathMap` writes are kept regardless); a `.md` file
(extension compared case-insensitively) is registered in the path table —
twice when its stem is `index`, since the source then re-registers the same
(already collapsed) URL path — and becomes a file node. -/
def scanEntry : FSEntry → String → (List NavNode × List (String × String))
  | .file name content, relativePath =>
    if strStartsWithL name.data ".".data then ([], [])
    else if toLowerL (extnameOf name.data) == ".md".data then
      let entryRel := joinRel relativePath name
      let nameWithoutExt := basenameMd name
      let urlPath := filePathToUrlPath entryRel
      let pairs :=
        (urlPath, entryRel) ::
          (if toLowerL nameWithoutExt.data == "index".data then [(urlPath, entryRel)] else [])
      ([{ name := displayName content nameWithoutExt, path := urlPath, type := .file,
          children := [], order := content.bind (·.frontmatter.order) }], pairs)
    else ([], [])
  | .dir name entries, relativePath =>
    if strStartsWithL name.data ".".data then ([], [])
    else
      let entryRel := joinRel relativePath name
      let r := scanDirectory entries entryRel
      if r.1.isEmpty then ([], r.2)
      else ([{ name := humanize name, path := "/" ++ entryRel, type := .directory,
               children := r.1, order := none }], r.2)

/-- The entry loop of `scanDirectory`, before sorting: nodes and path-table
writes accumulated in `readdir` order. -/
def scanList : List FSEntry → String → (List NavNode × List (String × String))
  | [], _ => ([], [])
  | e :: rest, rel =>
    let r1 := scanEntry e rel
    let r2 := scanList rest rel
    (r1.1 ++ r2.1, r1.2 ++ r2.2)

/-- Function `scanDirectory(dirPath, relativePath)`: scan all entries, then sort the
sibling nodes with the comparator.  The second component is the sequence of
`pathMap.set` calls (URL path → file path relative to the root). -/
def scanDirectory (entries : List FSEntry) (relativePath : String) :
    List NavNode × List (String × String) :=
  let r := scanList entries relativePath
  (sortNodes r.1, r.2)

end

/-! ## `FilesystemSource.getContent` over the filesystem model -/

/-- JS `Map.get` where later `Map.set` calls override earlier ones. -/
def mapGet (m : List (String × String)) (k : String) : Option String :=
  (m.reverse.find? (fun p => p.1 = k)).map (·.2)

/-- Split a relative path into its nonempty segments. -/
def segsOfPath (p : String) : List String :=
  ((splitOnChar '/' p.data).filter (· ≠ [])).map fun l => (⟨l⟩ : String)

/-- JS `urlPath === "" ? "/" : urlPath`. -/
def normalizeUrl (urlPath : String) : String := if urlPath = "" then "/" else urlPath

/-- JS `normalizedPath === "/" ? rootPath : join(rootPath, normalizedPath.slice(1))`,
as segments relative to the root. -/
def dirSegsOf (normalized : String) : List String :=
  if normalized = "/" then [] else segsOfPath ⟨normalized.data.drop 1⟩

/-- The reserved index-filename fallback list of `getContent`. -/
def fallbackNames : List String := ["index.md", "README.md", "overview.md"]

/-- The fallible Storage model `getContent` runs against: like `FSEntry`,
but a directory's listing may be unavailable — `listing = none` models a
`readdir` call that rejects because the directory was removed or became
unreadable after it was found.  `FSEntry` is this model restricted to
trees on which every `readdir` succeeds. -/
inductive FSNode where
  | file (name : String) (content : Option FileContent)
  | dir (name : String) (listing : Option (List FSNode))
deriving Repr

/-- Name of a filesystem node. -/
def nodeName : FSNode → String
  | .file n _ => n
  | .dir n _ => n

/-- Walk the tree along path segments.  Children of a directory whose
listing is gone (the removed-directory case) cannot be found. -/
def findNode (entries : List FSNode) : List String → Option FSNode
  | [] => none
  | s :: rest =>
    match entries.find? (fun e => nodeName e = s) with
    | some e =>
      if rest.isEmpty then some e
      else
        match e with
        | .dir _ (some sub) => findNode sub rest
        | _ => none
    | none => none

/-- Syscall `stat(path)`, discriminating directory-ness: `none` models ENOENT, and
`[]` addresses the root directory itself.  A directory found in its parent
exists for `stat` even when its own `readdir` would reject.  (URL paths
containing `.`/`..` segments, which `path.join` would re-resolve, are
outside this model.) -/
def statAtN (fs : List FSNode) (segs : List String) : Option Bool :=
  if segs.isEmpty then some true
  else
    match findNode fs segs with
    | some (.dir _ _) => some true
    | some (.file _ _) => some false
    | none => none

/-- Syscall `stat` succeeding at all (file or directory). -/
def existsAtN (fs : List FSNode) (segs : List String) : Bool := (statAtN fs segs).isSome

/-- Function `readFileContent(filePath)`: `none` for a missing path, a directory
(EISDIR) or an unreadable/unparsable file — that `try/catch` swallows every
document-level failure into `null`. -/
def readAtN (fs : List FSNode) (segs : List String) : Option FileContent :=
  match findNode fs segs with
  | some (.file _ c) => c
  | _ => none

mutual

/-- One entry of the fallible scan.  A file is handled exactly as in
`scanEntry`; a non-hidden subdirectory whose `readdir` rejects raises — the
source `scanDirectory` has no `try/catch` around `readdir` or the recursive
`await`, so the exception propagates. -/
def scanEntryE : FSNode → String → Except Unit (List NavNode × List (String × String))
  | .file name content, relativePath => .ok (scanEntry (FSEntry.file name content) relativePath)
  | .dir name listing, relativePath =>
    if strStartsWithL name.data ".".data then .ok ([], [])
    else
      match listing with
      | none => .error ()
      | some entries =>
        match scanDirectoryE entries (joinRel relativePath name) with
        | .error e => .error e
        | .ok r =>
          .ok (if r.1.isEmpty then ([], r.2)
               else ([{ name := humanize name, path := "/" ++ joinRel relativePath name,
                        type := .directory, children := r.1, order := none }], r.2))

/-- The entry loop of the fallible scan: the first rejecting `readdir`
aborts the whole scan. -/
def scanListE : List FSNode → String → Except Unit (List NavNode × List (String × String))
  | [], _ => .ok ([], [])
  | e :: rest, rel =>
    match scanEntryE e rel with
    | .error er => .error er
    | .ok r1 =>
      match scanListE rest rel with
      | .error er => .error er
      | .ok r2 => .ok (r1.1 ++ r2.1, r1.2 ++ r2.2)

/-- Fallible `scanDirectory`: scan all entries, then sort the siblings. -/
def scanDirectoryE (entries : List FSNode) (relativePath : String) :
    Except Unit (List NavNode × List (String × String)) :=
  match scanListE entries relativePath with
  | .error e => .error e
  | .ok r => .ok (sortNodes r.1, r.2)

end

/-- Function `getTree()` over the fallible model: `root = none` models the root
directory's own `readdir` rejecting; otherwise the recursive scan runs with
no exception handling anywhere on its path. -/
def getTreeE (root : Option (List FSNode)) :
    Except Unit (List NavNode × List (String × String)) :=
  match root with
  | none => .error ()
  | some es => scanDirectoryE es ""

/-- The path-resolution chain of `getContent` below the tree scan: direct
path-table lookup, then with a trailing slash, then the reserved index
filenames inside an existing directory; `none` when every stage fails.
Every filesystem probe here (`stat`, the fallback stats) sits inside a
`try/catch` in the source, so this part is total. -/
def resolveUrlPathN (fs : List FSNode) (pm : List (String × String)) (urlPath : String) :
    Option (List String) :=
  let normalized := normalizeUrl urlPath
  let direct := mapGet pm normalized
  let afterSlash :=
    match direct with
    | some p => some p
    | none => if normalized ≠ "/" then mapGet pm (normalized ++ "/") else none
  match afterSlash with
  | some p => some (segsOfPath p)
  | none =>
    let dirSegs := dirSegsOf normalized
    if statAtN fs dirSegs = some true then
      match fallbackNames.find? (fun fb => existsAtN fs (dirSegs ++ [fb])) with
      | some fb => some (dirSegs ++ [fb])
      | none => none
    else none

/-- Function `getContent(urlPath)` over the fallible model.  The method first
runs `await this.getTree()` outside any `try/catch` — a rejecting
`readdir` there propagates to the caller as `Except.error` — and only then
runs the failure-swallowing resolution chain and file read. -/
def getContentE (root : Option (List FSNode)) (urlPath : String) :
    Except Unit (Option FileContent) :=
  match root with
  | none => .error ()
  | some es =>
    match scanDirectoryE es "" with
    | .error e => .error e
    | .ok r =>
      .ok (match resolveUrlPathN es r.2 urlPath with
           | some segs => readAtN es segs
           | none => none)

/-- The filter describing what `scanDirectory` can see: hidden entries and
files without a (case-insensitive) `.md` extension are removed, recursively. -/
def visibleFilter : List FSEntry → List FSEntry
  | [] => []
  | .file n c :: r =>
    if strStartsWithL n.data ".".data || !(toLowerL (extnameOf n.data) == ".md".data)
    then visibleFilter r
    else .file n c :: visibleFilter r
  | .dir n es :: r =>
    if strStartsWithL n.data ".".data then visibleFilter r
    else .dir n (visibleFilter es) :: visibleFilter r

/-! ## Rendering pipeline (src/render/markdown.ts, src/render/highlight.ts)

The structural block/inline parse is the external `marked` library; what the
repository owns is the `code` renderer override, the placeholder queue, and
the async substitution pass of `renderMarkdown`.  A document is therefore
modelled as the sequence of segments the parser hands back: already-rendered
HTML stretches and fenced code blocks (text plus declared language).  The
external highlighter (`codeToHtml`) is a parameter returning `Except`, the
`Except.error` case standing for a thrown exception. -/

/-- One HTML-escaped character: the composition of the source's three
chained global replaces (`&`, then `<`, then `>`), which is a per-character
map since earlier replacements introduce no later match characters. -/
def escAmpLtGt (c : Char) : List Char :=
  if c = '&' then "&amp;".data
  else if c = '<' then "&lt;".data
  else if c = '>' then "&gt;".data
  else [c]

/-- JS `.replace(/&/g, "&amp;").replace(/</g, "&lt;").replace(/>/g, "&gt;")`. -/
def escapeHtmlL (l : List Char) : List Char := l.flatMap escAmpLtGt

/-- JS `.replace(/"/g, "&quot;")`. -/
def escapeQuotL (l : List Char) : List Char :=
  l.flatMap fun c => if c = '"' then "&quot;".data else [c]

/-- The diagram-source marker emitted for a mermaid fence:
`<pre class="mermaid-source" data-diagram="${escaped.replace(/"/g,"&quot;")}">${escaped}</pre>`. -/
def mermaidMarkerHtml (text : List Char) : List Char :=
  "<pre class=\"mermaid-source\" data-diagram=\"".data ++
    escapeQuotL (escapeHtmlL text) ++ "\">".data ++ escapeHtmlL text ++ "</pre>".data

/-- Placeholder `__CODE_BLOCK_${n}__`. -/
def placeholderFor (n : Nat) : List Char := ("__CODE_BLOCK_" ++ toString n ++ "__").data

/-- A queued code block (`codeBlocks` entry in `createMarkdownRenderer`). -/
structure CodeBlockQ where
  placeholder : List Char
  code : List Char
  lang : List Char
deriving DecidableEq, Repr

/-- A parsed document segment: an already-rendered HTML stretch, or a
fenced code block with its declared language (`none`/empty = no language). -/
inductive MdToken where
  | html (s : List Char)
  | codeFence (text : List Char) (lang : Option (List Char))
deriving Repr

/-- JS `lang || "plaintext"` (the empty string is falsy). -/
def langOrPlaintext : Option (List Char) → List Char
  | none => "plaintext".data
  | some l => if l.isEmpty then "plaintext".data else l

/-- The `code({ text, lang })` renderer override: mermaid fences become the
marker element (nothing queued, counter untouched); every other fence emits
a fresh placeholder and queues `(code, language)`. -/
def renderCodeToken (text : List Char) (lang : Option (List Char)) (counter : Nat) :
    List Char × List CodeBlockQ × Nat :=
  let language := langOrPlaintext lang
  if toLowerL language == "mermaid".data then (mermaidMarkerHtml text, [], counter)
  else (placeholderFor counter, [⟨placeholderFor counter, text, language⟩], counter + 1)

/-- Pass 1: the structural parse with the renderer override — concatenated
segment HTML plus the queue of pending code blocks. -/
def renderTokens : List MdToken → Nat → List Char × List CodeBlockQ
  | [], _ => ([], [])
  | .html s :: t, n =>
    let r := renderTokens t n
    (s ++ r.1, r.2)
  | .codeFence c l :: t, n =>
    let rc := renderCodeToken c l n
    let r := renderTokens t rc.2.2
    (rc.1 ++ r.1, rc.2.1 ++ r.2)

/-- The language list configured in `createHighlighter`
(`getLoadedLanguages()` of src/render/highlight.ts). -/
def shikiLangs : List (List Char) :=
  ["typescript", "javascript", "json", "bash", "shell", "markdown", "html", "css",
   "yaml", "python", "go", "rust", "sql", "graphql", "jsx", "tsx", "diff",
   "plaintext"].map String.data

/-- JS `validLangs.includes(lang) ? lang : "plaintext"`. -/
def hlLang (lang : List Char) : List Char :=
  if shikiLangs.contains lang then lang else "plaintext".data

/-- The escaped-plain-text fallback block built in `highlightCode`'s
`catch`. -/
def fallbackCodeHtml (language code : List Char) : List Char :=
  "<pre><code class=\"language-".data ++ language ++ "\">".data ++
    escapeHtmlL code ++ "</code></pre>".data

/-- Function `highlightCode(code, lang)`: unknown languages fall back to plaintext;
a throwing `codeToHtml` (the `Except.error` case of the external
collaborator `hl`) degrades to the escaped fallback block instead of
propagating. -/
def highlightCodeF (hl : List Char → List Char → Except Unit (List Char))
    (code lang : List Char) : List Char :=
  let language := hlLang lang
  match hl code language with
  | .ok h => h
  | .error _ => fallbackCodeHtml language code

/-- The ECMA-262 `GetSubstitution` expansion of a replacement string for a
string search value (so there are no capture groups): `$$` inserts `$`,
`$&` the matched text, a `$` followed by the backquote character (code 96)
the text before the match, `$'` (code 39) the text after the match; any
other `$` — including before digits or `<`, which with no captures come out
literal — stands for itself. -/
def jsSubstitution (matched before after : List Char) : List Char → List Char
  | [] => []
  | '$' :: c :: t =>
    if c = '$' then '$' :: jsSubstitution matched before after t
    else if c = '&' then matched ++ jsSubstitution matched before after t
    else if c = Char.ofNat 96 then before ++ jsSubstitution matched before after t
    else if c = Char.ofNat 39 then after ++ jsSubstitution matched before after t
    else '$' :: jsSubstitution matched before after (c :: t)
  | c :: t => c :: jsSubstitution matched before after t

/-- Helper for `replaceFirstL`: `pre` is the already-inspected prefix,
reversed.  At the first match the replacement string is spliced in after
`GetSubstitution` expansion against the match context. -/
def replaceFirstAux (pat rep pre l : List Char) : List Char :=
  if pat.isPrefixOf l then
    pre.reverse ++ jsSubstitution pat pre.reverse (l.drop pat.length) rep ++ l.drop pat.length
  else
    match l with
    | [] => pre.reverse
    | c :: t => replaceFirstAux pat rep (c :: pre) t

/-- JS `s.replace(pat, rep)` for a plain (non-regex) pattern: replace the
first occurrence only, expanding `$`-replacement patterns in `rep` as
`String.prototype.replace` does. -/
def replaceFirstL (l pat rep : List Char) : List Char :=
  replaceFirstAux pat rep [] l

/-- Function `renderMarkdown(markdown, options)`: pass 1, then substitute each
queued placeholder with its (possibly fallback) highlighted HTML.  Total:
no exception crosses this boundary. -/
def renderMarkdownF (hl : List Char → List Char → Except Unit (List Char))
    (tokens : List MdToken) : List Char :=
  let r := renderTokens tokens 0
  r.2.foldl (fun h b => replaceFirstL h b.placeholder (highlightCodeF hl b.code b.lang)) r.1

/-- Does `pat` occur as a contiguous substring? -/
def occursInL (pat : List Char) : List Char → Bool
  | [] => pat.isEmpty
  | c :: t => pat.isPrefixOf (c :: t) || occursInL pat t

/-- Fuel-driven greedy count of non-overlapping occurrences of a nonempty
pattern: a match is skipped over whole, anything else advances one
character. -/
def countOccurAux (pat : List Char) : Nat → List Char → Nat
  | 0, _ => 0
  | fuel + 1, l =>
    if pat.isPrefixOf l then 1 + countOccurAux pat fuel (l.drop pat.length)
    else
      match l with
      | [] => 0
      | _ :: t => countOccurAux pat fuel t

/-- Number of greedy non-overlapping occurrences of the nonempty pattern
`pat` (0 for the empty pattern); `l.length + 1` fuel always suffices. -/
def countOccurL (pat l : List Char) : Nat :=
  if pat.isEmpty then 0 else countOccurAux pat (l.length + 1) l

/-! ## Basic-auth middleware (src/middleware/auth.ts) -/

/-- Function `timingSafeEqual`: length check plus an OR-fold of XORed char codes. -/
def timingSafeEqualL (a b : List Char) : Bool :=
  if a.length ≠ b.length then false
  else ((a.zip b).foldl (fun r p => r ||| (p.1.toNat ^^^ p.2.toNat)) 0) == 0

/-- Function `createAuthMiddleware(credentials)` as a request decision: given the
configured credentials and the request's `Authorization` header, is the
request allowed through?  `btoa` is the external platform encoder, passed
in as `b64`.  Missing (`none`) or falsy-empty credentials disable auth; a
split without both a truthy username and password warns and disables auth;
otherwise the header must equal the precomputed `Basic` value. -/
def authAllows (b64 : List Char → List Char) (credentials : Option (List Char))
    (authHeader : Option (List Char)) : Bool :=
  match credentials with
  | none => true
  | some creds =>
    if creds.isEmpty then true
    else
      let parts := splitOnChar ':' creds
      let username := parts[0]?
      let password := parts[1]?
      let falsy : Option (List Char) → Bool := fun
        | none => true
        | some l => l.isEmpty
      if falsy username || falsy password then true
      else
        let expected := "Basic ".data ++ b64 (username.getD [] ++ ':' :: password.getD [])
        match authHeader with
        | none => false
        | some h => timingSafeEqualL h expected

/-! ## File watching (`FilesystemSource.watch`, src/content/filesystem.ts) -/

/-- The chokidar event kinds the source subscribes to; all five are wired
to the same `handleChange` listener. -/
inductive FsEvent where
  | add
  | change
  | unlink
  | addDir
  | unlinkDir
deriving DecidableEq, Repr

/-- The cache-and-notification state of one `FilesystemSource` plus a
count of how many times the registered `callback` has been invoked. -/
structure WatchState where
  navTree : Option (List NavNode) := none
  siteTitle : Option String := none
  callbackCount : Nat := 0

/-- Listener `handleChange`: clear the cached tree and title, then invoke the
callback — synchronously, with no scheduling or debouncing. -/
def handleChange (st : WatchState) : WatchState :=
  { navTree := none, siteTitle := none, callbackCount := st.callbackCount + 1 }

/-- Event dispatch: every one of the five subscribed events runs
`handleChange`. -/
def dispatchEvent (st : WatchState) (_e : FsEvent) : WatchState := handleChange st

/-- A burst of filesystem events delivered to the watcher, in order. -/
def processBurst (st : WatchState) (events : List FsEvent) : WatchState :=
  events.foldl dispatchEvent st

/-! ## Supporting lemmas -/

theorem splitOnChar_not_contains (c : Char) :
    ∀ l : List Char, l.contains c = false → splitOnChar c l = [l] := by
  intro l
  induction l with
  | nil => intro _; rfl
  | cons a t ih =>
    intro h
    simp only [List.contains_cons, Bool.or_eq_false_iff, beq_eq_false_iff_ne] at h
    have h2 : a ≠ c := Ne.symm h.1
    simp [splitOnChar, ih (by simpa using h.2), h2]

theorem ensure_slash_starts (u : List Char) :
    ∃ t, (if strStartsWithL u "/".data then u else '/' :: u) = '/' :: t := by
  by_cases h : strStartsWithL u "/".data = true
  · cases u with
    | nil => simp [strStartsWithL, List.isPrefixOf] at h
    | cons c t =>
      have hc : '/' = c := by simpa [strStartsWithL, List.isPrefixOf] using h
      subst hc
      exact ⟨t, by simp [h]⟩
  · exact ⟨u, by simp [h]⟩

theorem filePathToUrlPathL_starts_slash (p : List Char) :
    ∃ t, filePathToUrlPathL p = '/' :: t := by
  unfold filePathToUrlPathL
  exact ensure_slash_starts _

end MdHost

namespace MdHost

/-! # The claims -/

/-- Claim C1. (status: the claim is right, the code is wrong).  The claim — and
§4.1/§9 of the specification — state that `generateUniqueSlugs`'s
collision-resolution loop stops once every colliding path has exhausted its
segments, keeping duplicate maximal-segment slugs.  The code instead loops
forever: `hasConflicts` is set whenever a slug group has more than one
member, regardless of whether any segment count can still grow, and the
`while` only exits when `hasConflicts` is false.  Witnessed here on the
concrete input `["/docs", "/docs"]` (the same root configured twice): for
every fuel bound the loop is still running, i.e. the function never
returns. -/
theorem generateUniqueSlugs_diverges :
    ∀ fuel, generateUniqueSlugsFuel ["/docs".data, "/docs".data] fuel = none := by
  have key : ∀ f,
      slugLoop [pathSegmentsOf "/docs".data, pathSegmentsOf "/docs".data] f [1, 1] = none := by
    intro f
    induction f with
    | zero => rfl
    | succ n ih =>
      have hc : hasConflicts [pathSegmentsOf "/docs".data, pathSegmentsOf "/docs".data]
          [1, 1] = true := by decide
      have hs : stepCounts [pathSegmentsOf "/docs".data, pathSegmentsOf "/docs".data]
          [1, 1] = [1, 1] := by decide
      simp [slugLoop, hc, hs, ih]
  intro fuel
  simp [generateUniqueSlugsFuel, key fuel]

/-- Claim C2 counterexample..  The claim states that a burst of filesystem
events produces exactly one `onChange` invocation.  But `watch` wires all
five chokidar events directly to `handleChange`, which calls the callback
synchronously — there is no debouncing — so a burst of two events invokes
the callback twice. -/
theorem watch_burst_two_notifications :
    (processBurst ⟨none, none, 0⟩ [FsEvent.add, FsEvent.change]).callbackCount = 2 ∧
      (2 : Nat) ≠ 1 := by
  decide

theorem processBurst_cleared :
    ∀ (events : List FsEvent) (st : WatchState), st.navTree = none → st.siteTitle = none →
      (processBurst st events).navTree = none ∧ (processBurst st events).siteTitle = none := by
  intro events
  induction events with
  | nil => intro st h1 h2; exact ⟨h1, h2⟩
  | cons e t ih =>
    intro st _ _
    exact ih (dispatchEvent st e) rfl rfl

/-- Claim C2 amended..  The watcher invokes the registered callback once per
filesystem event, not once per burst: a burst of `n` events produces
exactly `n` invocations, and after any nonempty burst the cached tree and
site title have been cleared. -/
theorem watch_notifies_once_per_event (st : WatchState) (events : List FsEvent) :
    (processBurst st events).callbackCount = st.callbackCount + events.length ∧
      (events ≠ [] →
        (processBurst st events).navTree = none ∧
          (processBurst st events).siteTitle = none) := by
  constructor
  · induction events generalizing st with
    | nil => simp [processBurst]
    | cons e t ih =>
      have : processBurst st (e :: t) = processBurst (dispatchEvent st e) t := rfl
      rw [this, ih]
      simp [dispatchEvent, handleChange]
      omega
  · intro h
    cases events with
    | nil => exact absurd rfl h
    | cons e t =>
      exact processBurst_cleared t (dispatchEvent st e) rfl rfl

/-- Witness for C2 amended at a concrete state and burst. -/
theorem watch_notifies_once_per_event_witness :
    (processBurst ⟨some [], some "t", 5⟩ [FsEvent.add]).callbackCount =
        (⟨some [], some "t", 5⟩ : WatchState).callbackCount + [FsEvent.add].length ∧
      (processBurst ⟨some [], some "t", 5⟩ [FsEvent.add]).navTree = none ∧
      (processBurst ⟨some [], some "t", 5⟩ [FsEvent.add]).siteTitle = none :=
  ⟨(watch_notifies_once_per_event ⟨some [], some "t", 5⟩ [FsEvent.add]).1,
   (watch_notifies_once_per_event ⟨some [], some "t", 5⟩ [FsEvent.add]).2 (by simp)⟩

/-- Claim C7. (confirmed).  The four example equations for `resolveLink`:
parent-relative and sibling-relative links resolve against the current
path's directory with the `.md` extension stripped, while external URLs and
anchor-only links pass through unchanged. -/
theorem resolveLink_examples :
    resolveLink "../b.md" "/a/c" = "/b" ∧
      resolveLink "./d.md" "/a/c" = "/a/d" ∧
      resolveLink "https://x.com" "/a/c" = "https://x.com" ∧
      resolveLink "#sec" "/a/c" = "#sec" := by
  refine ⟨?_, ?_, ?_, ?_⟩ <;> decide

/-- Claim C9. (confirmed).  If the configured credentials string is present
but malformed — it contains no `:`, or its username part (before the first
`:`) is empty, or its password part is empty — `createAuthMiddleware`
returns the pass-through middleware: every request is allowed, with or
without an `Authorization` header.  (The hypothesis covers the claim's
malformed shapes via the source's `split(":")`.) -/
theorem authAllows_malformed (b64 : List Char → List Char) (creds : List Char)
    (hdr : Option (List Char))
    (h : creds.contains ':' = false ∨ (splitOnChar ':' creds)[0]? = some [] ∨
        (splitOnChar ':' creds)[1]? = some []) :
    authAllows b64 (some creds) hdr = true := by
  unfold authAllows
  by_cases he : creds.isEmpty
  · simp [he]
  · simp only [he, if_false, Bool.false_eq_true]
    rcases h with h | h | h
    · have hp : splitOnChar ':' creds = [creds] := splitOnChar_not_contains ':' creds h
      simp [hp]
    · simp [h]
    · simp [h]

/-- Witness for C9: credentials `"admin"` (no colon) with no
`Authorization` header — the request is allowed. -/
theorem authAllows_malformed_witness :
    authAllows id (some "admin".data) none = true :=
  authAllows_malformed id "admin".data none (Or.inl (by decide))

/-- Claim C8 counterexample..  `filePathToUrlPath` is not idempotent: for the
relative document path `a.md.md` one application yields `/a.md` (the regex
strips a single `.md` suffix) and a second application strips again,
yielding `/a`. -/
theorem filePathToUrlPath_not_idempotent :
    ¬ (filePathToUrlPath (filePathToUrlPath "a.md.md") = filePathToUrlPath "a.md.md") := by
  decide

/-- Claim C8 amended..  `filePathToUrlPath` is idempotent for every relative
document path whose image neither still ends in `.md` (case-insensitively)
nor ends in `/index` — exactly the two shapes the counterexample family
exploits (`a.md.md`, `a/index/index.md`). -/
theorem filePathToUrlPath_idempotent_amended (p : List Char)
    (h1 : hasMdSuffix (filePathToUrlPathL p) = false)
    (h2 : strEndsWithL (filePathToUrlPathL p) "/index".data = false) :
    filePathToUrlPathL (filePathToUrlPathL p) = filePathToUrlPathL p := by
  obtain ⟨t, ht⟩ := filePathToUrlPathL_starts_slash p
  rw [ht] at h1 h2 ⊢
  have hne : (('/' :: t) == "index".data) = false := by
    apply beq_eq_false_iff_ne.mpr
    intro hcontr
    have h0 := congrArg (fun l => l.headD ' ') hcontr
    simp at h0
  have hs : stripMdL ('/' :: t) = '/' :: t := by simp [stripMdL, h1]
  simp [filePathToUrlPathL, hs, h2, hne, strStartsWithL, List.isPrefixOf]

/-- The sort priority the comparator actually implements: the position in
`indexNames` of the node's URL path's final segment for index-like file
nodes, and 3 for everything else. -/
def idxPrioOf (a : NavNode) : Nat := if isIdxNode a then idxOfNode a else 3

theorem listIdxOf_le_length (x : List Char) : ∀ l, listIdxOf x l ≤ l.length := by
  intro l
  induction l with
  | nil => simp [listIdxOf]
  | cons y t ih =>
    by_cases h : y = x
    · simp [listIdxOf, h]
    · simp [listIdxOf, h]
      omega

theorem idxOfNode_le_three (a : NavNode) : idxOfNode a ≤ 3 := by
  unfold idxOfNode
  have h := listIdxOf_le_length (lastSegLower a.path) indexNames
  simpa [indexNames] using h

theorem cmpNodes_le_prio (a b : NavNode) (h : cmpNodes a b ≤ 0) :
    idxPrioOf a ≤ idxPrioOf b := by
  unfold cmpNodes at h
  unfold idxPrioOf
  cases haI : isIdxNode a <;> cases hbI : isIdxNode b <;> simp [haI, hbI] at h ⊢
  · exact idxOfNode_le_three a
  · omega

theorem cmpNodes_pos_prio (a b : NavNode) (h : ¬ cmpNodes a b ≤ 0) :
    idxPrioOf b ≤ idxPrioOf a := by
  unfold cmpNodes at h
  unfold idxPrioOf
  cases haI : isIdxNode a <;> cases hbI : isIdxNode b <;> simp [haI, hbI] at h ⊢
  · exact idxOfNode_le_three b
  · omega

theorem mem_orderedInsertNode (x z : NavNode) (l : List NavNode) :
    z ∈ orderedInsertNode x l ↔ z = x ∨ z ∈ l := by
  induction l with
  | nil => simp [orderedInsertNode]
  | cons y t ih =>
    by_cases h : cmpNodes x y ≤ 0
    · simp [orderedInsertNode, h]
      try tauto
    · simp [orderedInsertNode, h, ih]
      try tauto

theorem pairwise_prio_orderedInsert (x : NavNode) (l : List NavNode)
    (h : l.Pairwise fun a b => idxPrioOf a ≤ idxPrioOf b) :
    (orderedInsertNode x l).Pairwise fun a b => idxPrioOf a ≤ idxPrioOf b := by
  induction l with
  | nil => simp [orderedInsertNode]
  | cons y t ih =>
    rw [List.pairwise_cons] at h
    obtain ⟨hy, ht⟩ := h
    by_cases hc : cmpNodes x y ≤ 0
    · simp only [orderedInsertNode, hc, if_true]
      refine List.Pairwise.cons ?_ (List.Pairwise.cons hy ht)
      intro z hz
      rcases List.mem_cons.mp hz with rfl | hz
      · exact cmpNodes_le_prio x z hc
      · exact le_trans (cmpNodes_le_prio x y hc) (hy z hz)
    · simp only [orderedInsertNode, hc, if_false]
      refine List.Pairwise.cons ?_ (ih ht)
      intro z hz
      rcases (mem_orderedInsertNode x z t).mp hz with rfl | hz
      · exact cmpNodes_pos_prio z y hc
      · exact hy z hz

theorem sortNodes_pairwise_prio (l : List NavNode) :
    (sortNodes l).Pairwise fun a b => idxPrioOf a ≤ idxPrioOf b := by
  induction l with
  | nil => exact List.Pairwise.nil
  | cons a t ih => exact pairwise_prio_orderedInsert a _ ih

/-- Claim C3 counterexample..  The claim says nodes whose *file stem* is a
reserved index-like name sort first, ordered `index` before `readme`.  For
a directory containing `index.md` and `readme.md` it therefore demands
`index.md`'s node (URL path `/`) first.  But the comparator keys on the URL
path's final segment, and `index.md`'s URL path has collapsed to its
directory, so only `readme.md` is recognized as index-like and is listed
first — the output is `["/readme", "/"]`, not `["/", "/readme"]`. -/
theorem scan_readme_before_index :
    ((scanDirectory [.file "index.md" (some {}), .file "readme.md" (some {})] "").1.map
        fun n => n.path) = ["/readme", "/"] ∧
      ¬ ((scanDirectory [.file "index.md" (some {}), .file "readme.md" (some {})] "").1.map
          fun n => n.path) = ["/", "/readme"] := by
  simp only [scanDirectory, scanList, scanEntry]
  decide

/-- Claim C3 amended..  In every sibling list produced by a scan, the
comparator's priority — computed from the final segment of the node's URL
path, not the file stem — is nondecreasing: file nodes whose URL path ends
in `index`/`readme`/`overview` come before all other siblings, ordered by
that fixed priority list.  An `index.md` file's URL path collapses to its
parent directory, so it is not recognized by this rule; in the claim's own
example directory containing `index.md` and `notes.md`, `index.md` is
nonetheless listed first, through the alphabetical display-name
comparison. -/
theorem scan_siblings_prio_sorted :
    (∀ (entries : List FSEntry) (rel : String),
        ((scanDirectory entries rel).1).Pairwise fun a b => idxPrioOf a ≤ idxPrioOf b) ∧
      ((scanDirectory [.file "index.md" (some {}), .file "notes.md" (some {})] "").1.map
          fun n => n.path) = ["/", "/notes"] := by
  constructor
  · intro entries rel
    rw [scanDirectory]
    exact sortNodes_pairwise_prio _
  · simp only [scanDirectory, scanList, scanEntry]
    decide

theorem scanList_visibleFilter : ∀ (entries : List FSEntry) (rel : String),
    scanList (visibleFilter entries) rel = scanList entries rel
  | [], _ => by rw [visibleFilter]
  | (FSEntry.file n c) :: rest, rel => by
    have hrest := scanList_visibleFilter rest rel
    by_cases h1 : strStartsWithL n.data ".".data
    · simp [visibleFilter, scanList, scanEntry, h1, hrest]
    · by_cases h2 : (toLowerL (extnameOf n.data) == ".md".data) = true
      · simp [visibleFilter, scanList, h1, h2, hrest]
      · simp [visibleFilter, scanList, scanEntry, h1, h2, hrest]
  | (FSEntry.dir n es) :: rest, rel => by
    have hrest := scanList_visibleFilter rest rel
    by_cases h1 : strStartsWithL n.data ".".data
    · simp [visibleFilter, scanList, scanEntry, h1, hrest]
    · have hes := scanList_visibleFilter es (joinRel rel n)
      have hd : scanDirectory (visibleFilter es) (joinRel rel n) =
          scanDirectory es (joinRel rel n) := by
        simp only [scanDirectory, hes]
      have hv : visibleFilter (FSEntry.dir n es :: rest) =
          FSEntry.dir n (visibleFilter es) :: visibleFilter rest := by
        rw [visibleFilter]
        simp [h1]
      rw [hv, scanList, scanList, hrest, scanEntry, scanEntry]
      dsimp only
      rw [hd]
termination_by entries _ => sizeOf entries

theorem scanList_pairs_md : ∀ (entries : List FSEntry) (rel : String),
    ∀ pr ∈ (scanList entries rel).2,
      ∃ d n, pr.2 = joinRel d n ∧ toLowerL (extnameOf n.data) = ".md".data
  | [], _ => by simp [scanList]
  | (FSEntry.file n c) :: rest, rel => by
    intro pr hpr
    simp only [scanList, List.mem_append] at hpr
    rcases hpr with h | h
    · by_cases h1 : strStartsWithL n.data ".".data
      · simp [scanEntry, h1] at h
      · by_cases h2 : (toLowerL (extnameOf n.data) == ".md".data) = true
        · refine ⟨rel, n, ?_, by simpa using h2⟩
          simp only [scanEntry, h1, h2] at h
          simp only [Bool.false_eq_true, if_false, if_true, List.mem_cons] at h
          rcases h with rfl | h
          · rfl
          · split at h
            · rcases List.mem_singleton.mp h with rfl
              rfl
            · simp at h
        · simp [scanEntry, h1, h2] at h
    · exact scanList_pairs_md rest rel pr h
  | (FSEntry.dir n es) :: rest, rel => by
    intro pr hpr
    simp only [scanList, List.mem_append] at hpr
    rcases hpr with h | h
    · by_cases h1 : strStartsWithL n.data ".".data
      · simp [scanEntry, h1] at h
      · have hmem : pr ∈ (scanList es (joinRel rel n)).2 := by
          simp only [scanEntry, h1] at h
          simp only [Bool.false_eq_true, if_false, scanDirectory] at h
          split at h
          · exact h
          · exact h
        exact scanList_pairs_md es (joinRel rel n) pr hmem
    · exact scanList_pairs_md rest rel pr h
termination_by entries _ => sizeOf entries

/-- Claim C10. (confirmed).  Only regular files with a case-insensitive `.md`
extension are visible to a scan: the navigation tree and the path table are
unchanged when every hidden entry and every non-`.md` file is deleted from
the filesystem first (so such files are invisible to `getTree` and
unresolvable by direct `getContent` lookup), and every path registered in
the table is a `.md`-named file.  Scanning is a pure function of the tree,
so the invariant holds for every rescan. -/
theorem scan_only_md_visible :
    ∀ (entries : List FSEntry) (rel : String),
      scanDirectory (visibleFilter entries) rel = scanDirectory entries rel ∧
        ∀ pr ∈ (scanDirectory entries rel).2,
          ∃ d n, pr.2 = joinRel d n ∧ toLowerL (extnameOf n.data) = ".md".data := by
  intro entries rel
  constructor
  · simp only [scanDirectory, scanList_visibleFilter]
  · intro pr hpr
    exact scanList_pairs_md entries rel pr (by simpa [scanDirectory] using hpr)

/-- Witness for C10 on a concrete tree containing a `.txt` file. -/
theorem scan_only_md_visible_witness :
    scanDirectory (visibleFilter [FSEntry.file "a.md" none, FSEntry.file "b.txt" none]) "" =
        scanDirectory [FSEntry.file "a.md" none, FSEntry.file "b.txt" none] "" ∧
      ∃ d n, (("/a", "a.md") : String × String).2 = joinRel d n ∧
        toLowerL (extnameOf n.data) = ".md".data :=
  ⟨(scan_only_md_visible [FSEntry.file "a.md" none, FSEntry.file "b.txt" none] "").1,
   (scan_only_md_visible [FSEntry.file "a.md" none, FSEntry.file "b.txt" none] "").2
     ("/a", "a.md") (by simp only [scanDirectory, scanList, scanEntry]; decide)⟩

theorem resolveUrlPathN_none_iff (fs : List FSNode) (pm : List (String × String))
    (up : String) :
    resolveUrlPathN fs pm up = none ↔
      (mapGet pm (normalizeUrl up) = none ∧
        (normalizeUrl up = "/" ∨ mapGet pm (normalizeUrl up ++ "/") = none) ∧
        (statAtN fs (dirSegsOf (normalizeUrl up)) ≠ some true ∨
          ∀ fb ∈ fallbackNames, existsAtN fs (dirSegsOf (normalizeUrl up) ++ [fb]) = false)) := by
  unfold resolveUrlPathN
  dsimp only
  cases h1 : mapGet pm (normalizeUrl up) with
  | some p => simp [h1]
  | none =>
    by_cases h2 : normalizeUrl up = "/"
    · simp only [h1, h2, ne_eq, not_true_eq_false, if_false, eq_self_iff_true, true_or, true_and]
      by_cases h3 : statAtN fs (dirSegsOf "/") = some true
      · rw [if_pos h3]
        cases h4 : fallbackNames.find? (fun fb => existsAtN fs (dirSegsOf "/" ++ [fb])) with
        | some fb =>
          have hp := List.find?_some h4
          have hm := List.mem_of_find?_eq_some h4
          simp only [h4]
          simp [h3]
          exact ⟨fb, hm, hp⟩
        | none =>
          rw [List.find?_eq_none] at h4
          simp only [h2] at h3 ⊢
          simp [h3, h4]
          intro fb hfb
          simpa using h4 fb hfb
      · simp only [h2] at h3 ⊢
        simp [h3]
    · simp only [h1]
      rw [if_pos (by exact h2)]
      cases h2' : mapGet pm (normalizeUrl up ++ "/") with
      | some p => simp [h2', h2]
      | none =>
        simp only [h2']
        by_cases h3 : statAtN fs (dirSegsOf (normalizeUrl up)) = some true
        · rw [if_pos h3]
          cases h4 : fallbackNames.find?
              (fun fb => existsAtN fs (dirSegsOf (normalizeUrl up) ++ [fb])) with
          | some fb =>
            have hp := List.find?_some h4
            have hm := List.mem_of_find?_eq_some h4
            simp only [h4]
            simp [h3, h2]
            exact ⟨fb, hm, hp⟩
          | none =>
            rw [List.find?_eq_none] at h4
            simp [h3, h4, h2]
            intro fb hfb
            simpa using h4 fb hfb
        · simp [h3, h2]

/-- Claim C4 counterexample.  The claim says `getContent` never raises an
exception to its caller: every document-level failure becomes the not-found
value `null`.  But the source `getContent` begins with
`await this.getTree()` outside any `try/catch`, and `scanDirectory`'s
`readdir` rejects when a subdirectory vanishes or becomes unreadable
mid-run — on a root containing such a directory the exception reaches the
caller instead of the not-found value. -/
theorem getContentE_raises :
    getContentE (some [FSNode.dir "docs" none]) "/docs/setup" = Except.error () ∧
      (Except.error () : Except Unit (Option FileContent)) ≠ Except.ok none := by
  constructor
  · simp only [getContentE, scanDirectoryE, scanListE, scanEntryE]
    rfl
  · intro h
    cases h

/-- Claim C4 amended.  `getContent` raises an exception to its caller
exactly when the `await this.getTree()` it starts with fails — the root's
or a scanned subdirectory's `readdir` rejecting, which nothing catches.
Whenever that tree scan succeeds, `getContent` is total: every
document-level failure (unreadable or unparsable file, nonexistent path) is
the explicit not-found value, and the resolution comes up empty only after
the direct path-table lookup, the trailing-separator lookup, and the
reserved index-filename fallbacks within an existing directory are all
exhausted. -/
theorem getContentE_spec (root : Option (List FSNode)) (up : String) :
    (getContentE root up = Except.error () ↔ getTreeE root = Except.error ()) ∧
    ∀ es r, root = some es → scanDirectoryE es "" = Except.ok r →
      getContentE root up =
          Except.ok (match resolveUrlPathN es r.2 up with
            | some segs => readAtN es segs
            | none => none) ∧
        (resolveUrlPathN es r.2 up = none ↔
          (mapGet r.2 (normalizeUrl up) = none ∧
            (normalizeUrl up = "/" ∨ mapGet r.2 (normalizeUrl up ++ "/") = none) ∧
            (statAtN es (dirSegsOf (normalizeUrl up)) ≠ some true ∨
              ∀ fb ∈ fallbackNames,
                existsAtN es (dirSegsOf (normalizeUrl up) ++ [fb]) = false))) := by
  constructor
  · cases root with
    | none => simp [getContentE, getTreeE]
    | some es =>
      cases hs : scanDirectoryE es "" with
      | error e =>
        cases e
        simp [getContentE, getTreeE, hs]
      | ok r => simp [getContentE, getTreeE, hs]
  · intro es r hre hs
    subst hre
    constructor
    · simp [getContentE, hs]
    · exact resolveUrlPathN_none_iff es r.2 up

/-- A concrete healthy one-file root for the C4 witness. -/
def rootA : List FSNode := [FSNode.file "a.md" (some {})]

/-- The scan result of `rootA`. -/
def scanResA : List NavNode × List (String × String) :=
  ([{ name := "A", path := "/a", type := .file, children := [], order := none }],
    [("/a", "a.md")])

/-- Witness for C4 amended at a concrete one-file root whose scan
succeeds. -/
theorem getContentE_spec_witness :
    (getContentE (some rootA) "/a" = Except.error () ↔
        getTreeE (some rootA) = Except.error ()) ∧
      getContentE (some rootA) "/a" =
          Except.ok (match resolveUrlPathN rootA scanResA.2 "/a" with
            | some segs => readAtN rootA segs
            | none => none) ∧
        (resolveUrlPathN rootA scanResA.2 "/a" = none ↔
          (mapGet scanResA.2 (normalizeUrl "/a") = none ∧
            (normalizeUrl "/a" = "/" ∨
              mapGet scanResA.2 (normalizeUrl "/a" ++ "/") = none) ∧
            (statAtN rootA (dirSegsOf (normalizeUrl "/a")) ≠ some true ∨
              ∀ fb ∈ fallbackNames,
                existsAtN rootA (dirSegsOf (normalizeUrl "/a") ++ [fb]) = false))) :=
  ⟨(getContentE_spec (some rootA) "/a").1,
   (getContentE_spec (some rootA) "/a").2 rootA scanResA rfl
     (by simp only [rootA, scanResA, scanDirectoryE, scanListE, scanEntryE, scanEntry]; rfl)⟩

theorem occursInL_false_countOccurAux (pat : List Char) (hne : pat ≠ []) :
    ∀ (fuel : Nat) (l : List Char), occursInL pat l = false → countOccurAux pat fuel l = 0 := by
  intro fuel
  induction fuel with
  | zero => intro l _; rfl
  | succ n ih =>
    intro l hocc
    cases l with
    | nil =>
      have hpre : pat.isPrefixOf ([] : List Char) = false := by
        cases pat with
        | nil => exact absurd rfl hne
        | cons p ps => rfl
      simp [countOccurAux, hpre]
    | cons c t =>
      have h' : pat.isPrefixOf (c :: t) = false ∧ occursInL pat t = false := by
        simpa [occursInL, Bool.or_eq_false_iff] using hocc
      simp [countOccurAux, h'.1, ih t h'.2]

theorem countOccurL_single (pat rest : List Char) (hne : pat ≠ [])
    (hocc : occursInL pat rest = false) : countOccurL pat (pat ++ rest) = 1 := by
  have hne' : pat.isEmpty = false := by
    cases pat with
    | nil => exact absurd rfl hne
    | cons p ps => rfl
  unfold countOccurL
  rw [hne']
  have hpre : pat.isPrefixOf (pat ++ rest) = true :=
    List.isPrefixOf_iff_prefix.mpr (List.prefix_append pat rest)
  simp only [Bool.false_eq_true, if_false, List.length_append, countOccurAux, hpre, if_true,
    List.drop_left]
  rw [occursInL_false_countOccurAux pat hne _ rest hocc]

theorem take_patLen_extend_eq (A pat B : List Char) (hA1 : 1 ≤ A.length) :
    (A ++ pat ++ B).take pat.length = (A ++ pat.dropLast).take pat.length := by
  by_cases hlen : pat.length ≤ A.length
  · rw [List.append_assoc, List.take_append_of_le_length hlen,
      List.take_append_of_le_length hlen]
  · rw [List.append_assoc, List.take_append_eq_append_take,
      @List.take_append_eq_append_take Char A pat.dropLast pat.length,
      @List.take_append_of_le_length Char pat B (pat.length - A.length) (by omega)]
    congr 1
    rw [List.dropLast_eq_take, List.take_take]
    congr 1
    omega

theorem isPrefixOf_extend_false (A pat B : List Char) (hA1 : 1 ≤ A.length)
    (h : pat.isPrefixOf (A ++ pat.dropLast) = false) :
    pat.isPrefixOf (A ++ pat ++ B) = false := by
  cases hb : pat.isPrefixOf (A ++ pat ++ B) with
  | false => rfl
  | true =>
    exfalso
    have h1 : pat <+: A ++ pat ++ B := List.isPrefixOf_iff_prefix.mp hb
    rw [List.prefix_iff_eq_take] at h1
    have h2 : pat <+: A ++ pat.dropLast := by
      rw [List.prefix_iff_eq_take, ← take_patLen_extend_eq A pat B hA1]
      exact h1
    have h3 := List.isPrefixOf_iff_prefix.mpr h2
    rw [h] at h3
    exact Bool.false_ne_true h3

theorem replaceFirstAux_of_isPrefixOf (pat rep pre l : List Char)
    (h : pat.isPrefixOf l = true) :
    replaceFirstAux pat rep pre l =
      pre.reverse ++ jsSubstitution pat pre.reverse (l.drop pat.length) rep ++
        l.drop pat.length := by
  cases l with
  | nil => simp [replaceFirstAux, h]
  | cons c t => simp [replaceFirstAux, h]

theorem replaceFirstAux_cons_of_not (pat rep pre : List Char) (c : Char) (t : List Char)
    (h : pat.isPrefixOf (c :: t) = false) :
    replaceFirstAux pat rep pre (c :: t) = replaceFirstAux pat rep (c :: pre) t := by
  simp [replaceFirstAux, h]

theorem jsSubstitution_cons_ne (m b a : List Char) (c : Char) (t : List Char)
    (h : c ≠ '$') :
    jsSubstitution m b a (c :: t) = c :: jsSubstitution m b a t := by
  cases t with
  | nil => simp [jsSubstitution, h]
  | cons c2 t2 => simp [jsSubstitution, h]

theorem jsSubstitution_no_dollar (m b a : List Char) :
    ∀ rep, rep.contains '$' = false → jsSubstitution m b a rep = rep := by
  intro rep
  induction rep with
  | nil => intro _; rfl
  | cons c t ih =>
    intro h
    have hc : ¬ ('$' = c) ∧ t.contains '$' = false := by
      simpa [List.contains_cons, Bool.or_eq_false_iff, beq_eq_false_iff_ne] using h
    rw [jsSubstitution_cons_ne m b a c t (fun hh => hc.1 hh.symm), ih hc.2]

theorem replaceFirstAux_spec (pat rep B : List Char) :
    ∀ (A pre : List Char), occursInL pat (A ++ pat.dropLast) = false →
      replaceFirstAux pat rep pre (A ++ pat ++ B) =
        pre.reverse ++ A ++ jsSubstitution pat (pre.reverse ++ A) B rep ++ B := by
  intro A
  induction A with
  | nil =>
    intro pre _
    have hpre : pat.isPrefixOf (pat ++ B) = true :=
      List.isPrefixOf_iff_prefix.mpr (List.prefix_append pat B)
    simp only [List.nil_append]
    rw [replaceFirstAux_of_isPrefixOf _ _ _ _ hpre, List.drop_left]
    simp
  | cons a A' ih =>
    intro pre hA
    have hA' : pat.isPrefixOf ((a :: A') ++ pat.dropLast) = false ∧
        occursInL pat (A' ++ pat.dropLast) = false := by
      simpa [occursInL, Bool.or_eq_false_iff] using hA
    have hstep : pat.isPrefixOf ((a :: A') ++ pat ++ B) = false :=
      isPrefixOf_extend_false (a :: A') pat B (by simp) hA'.1
    have heq : (a :: A') ++ pat ++ B = a :: (A' ++ pat ++ B) := by simp
    rw [heq] at hstep
    rw [heq, replaceFirstAux_cons_of_not _ _ _ _ _ hstep, ih (a :: pre) hA'.2]
    simp

/-- The effect of the source's `html.replace(placeholder, rep)` when the
placeholder occurs exactly at the end of `A` (and `A` does not spoof it):
the replacement is spliced in after `GetSubstitution` expansion against the
surrounding page. -/
theorem replaceFirstL_append (pat A B rep : List Char)
    (hA : occursInL pat (A ++ pat.dropLast) = false) :
    replaceFirstL (A ++ pat ++ B) pat rep = A ++ jsSubstitution pat A B rep ++ B := by
  unfold replaceFirstL
  have h := replaceFirstAux_spec pat rep B A [] hA
  simpa using h

/-- Claim C5 counterexample.  The claim says the failing block's content
appears as HTML-escaped plain text in the output.  But the source
substitutes with `html.replace(placeholder, highlighted)`, and
`String.prototype.replace` expands `$`-patterns in the replacement string;
the fallback text is the escaped code, which keeps `$` intact.  For a
failing block containing `a$$b` the page shows `a$b`: the escaped content
never appears, and the output differs from page-plus-escaped-fallback. -/
theorem renderMarkdown_fallback_dollar_mangled :
    occursInL (escapeHtmlL "a$$b".data)
        (renderMarkdownF (fun _ _ => Except.error ())
          [.html "<p>x</p>".data, .codeFence "a$$b".data (some "typescript".data),
            .html "<p>y</p>".data]) = false ∧
      renderMarkdownF (fun _ _ => Except.error ())
          [.html "<p>x</p>".data, .codeFence "a$$b".data (some "typescript".data),
            .html "<p>y</p>".data] ≠
        "<p>x</p>".data ++
          fallbackCodeHtml (hlLang (langOrPlaintext (some "typescript".data))) "a$$b".data ++
          "<p>y</p>".data := by
  decide

/-- Claim C5 amended.  When the external highlighter throws
(`hl = Except.error`) for a queued block's (resolved) language, the render
still returns the complete page — the render is total, so no exception
crosses the `renderMarkdown` boundary — with the failing block replaced by
the `GetSubstitution` expansion of the escaped fallback block against the
surrounding page (JS `String.replace` expands `$$`/`$&`/dollar-backquote/
dollar-quote in the replacement string).  Whenever the fallback text
contains no `$` character, the block's content appears exactly as
HTML-escaped plain text inside the generic
`<pre><code class="language-...">` container.  The last hypothesis rules
out the content before the block spoofing the placeholder token. -/
theorem renderMarkdown_highlighter_throws
    (pre post code : List Char) (lang : Option (List Char))
    (hl : List Char → List Char → Except Unit (List Char))
    (hmerm : toLowerL (langOrPlaintext lang) ≠ "mermaid".data)
    (herr : hl code (hlLang (langOrPlaintext lang)) = .error ())
    (hA : occursInL (placeholderFor 0) (pre ++ (placeholderFor 0).dropLast) = false) :
    renderMarkdownF hl [.html pre, .codeFence code lang, .html post] =
      pre ++ jsSubstitution (placeholderFor 0) pre post
          (fallbackCodeHtml (hlLang (langOrPlaintext lang)) code) ++ post ∧
    ((fallbackCodeHtml (hlLang (langOrPlaintext lang)) code).contains '$' = false →
      renderMarkdownF hl [.html pre, .codeFence code lang, .html post] =
        pre ++ fallbackCodeHtml (hlLang (langOrPlaintext lang)) code ++ post) := by
  have hb : (toLowerL (langOrPlaintext lang) == "mermaid".data) = false :=
    beq_eq_false_iff_ne.mpr hmerm
  have hhl : highlightCodeF hl code (langOrPlaintext lang) =
      fallbackCodeHtml (hlLang (langOrPlaintext lang)) code := by
    simp [highlightCodeF, herr]
  have hmain : renderMarkdownF hl [.html pre, .codeFence code lang, .html post] =
      pre ++ jsSubstitution (placeholderFor 0) pre post
          (fallbackCodeHtml (hlLang (langOrPlaintext lang)) code) ++ post := by
    unfold renderMarkdownF
    simp only [renderTokens, renderCodeToken, hb, Bool.false_eq_true, if_false,
      List.append_nil, List.foldl_cons, List.foldl_nil]
    rw [hhl, show pre ++ (placeholderFor 0 ++ post) = pre ++ placeholderFor 0 ++ post by simp,
      replaceFirstL_append _ _ _ _ hA]
  refine ⟨hmain, fun hd => ?_⟩
  rw [hmain, jsSubstitution_no_dollar _ _ _ _ hd]

/-- Witness for C5 amended: a concrete document whose single `typescript`
block is rendered with an always-throwing highlighter. -/
theorem renderMarkdown_highlighter_throws_witness :
    renderMarkdownF (fun _ _ => Except.error ())
        [.html "<p>a</p>".data, .codeFence "x<y".data (some "typescript".data),
          .html "<p>b</p>".data] =
      "<p>a</p>".data ++
        jsSubstitution (placeholderFor 0) "<p>a</p>".data "<p>b</p>".data
          (fallbackCodeHtml (hlLang (langOrPlaintext (some "typescript".data))) "x<y".data) ++
        "<p>b</p>".data ∧
      renderMarkdownF (fun _ _ => Except.error ())
          [.html "<p>a</p>".data, .codeFence "x<y".data (some "typescript".data),
            .html "<p>b</p>".data] =
        "<p>a</p>".data ++
          fallbackCodeHtml (hlLang (langOrPlaintext (some "typescript".data))) "x<y".data ++
          "<p>b</p>".data :=
  have main := renderMarkdown_highlighter_throws "<p>a</p>".data "<p>b</p>".data
    "x<y".data (some "typescript".data) (fun _ _ => Except.error ())
    (by decide) rfl (by decide)
  ⟨main.1, main.2 (by decide)⟩

/-- Claim C6 counterexample.  The claim says the typescript block's
placeholder is fully replaced by highlighted HTML, leaving no placeholder
token in the final string.  But `String.prototype.replace` expands
`$`-patterns in the replacement string and shiki output keeps `$` intact:
if the highlighted HTML contains `$&`, the substitution reinserts the
matched placeholder itself, so a placeholder token survives in the final
string and the output is not the marker followed by the highlighted
HTML. -/
theorem renderMarkdown_dollar_amp_reinserts_placeholder :
    occursInL (placeholderFor 0)
        (renderMarkdownF (fun _ _ => Except.ok "X$&Y".data)
          [.codeFence "graph TD".data (some "mermaid".data),
            .codeFence "let x = 1".data (some "typescript".data)]) = true ∧
      renderMarkdownF (fun _ _ => Except.ok "X$&Y".data)
          [.codeFence "graph TD".data (some "mermaid".data),
            .codeFence "let x = 1".data (some "typescript".data)] ≠
        mermaidMarkerHtml "graph TD".data ++ "X$&Y".data := by
  decide

/-- Claim C6 amended.  Rendering a document of exactly one fenced mermaid
block and one fenced typescript block: the queue handed to the highlighter
contains only the typescript block (the mermaid source is never sent to the
highlighter), and — provided the highlighted HTML contains no `$` character
(JS `String.replace` expands `$`-patterns in the replacement string, so
e.g. a `$&` would reinsert the placeholder) — the output is the
diagram-source marker, carrying the block's source attribute-encoded in
`data-diagram`, followed exactly by the highlighted HTML; the marker occurs
exactly once and no placeholder token is left, under the stated
non-spoofing hypotheses on the block contents and highlighter output. -/
theorem renderMarkdown_mermaid_and_ts
    (m c h : List Char) (hl : List Char → List Char → Except Unit (List Char))
    (hok : hl c "typescript".data = .ok h)
    (hd : h.contains '$' = false)
    (hA : occursInL (placeholderFor 0)
        (mermaidMarkerHtml m ++ (placeholderFor 0).dropLast) = false) :
    (renderTokens [.codeFence m (some "mermaid".data),
        .codeFence c (some "typescript".data)] 0).2 =
        [⟨placeholderFor 0, c, "typescript".data⟩] ∧
      renderMarkdownF hl [.codeFence m (some "mermaid".data),
          .codeFence c (some "typescript".data)] = mermaidMarkerHtml m ++ h ∧
      (occursInL "<pre class=\"mermaid-source\"".data
          (" data-diagram=\"".data ++ escapeQuotL (escapeHtmlL m) ++ "\">".data ++
            escapeHtmlL m ++ "</pre>".data ++ h) = false →
        countOccurL "<pre class=\"mermaid-source\"".data
          (renderMarkdownF hl [.codeFence m (some "mermaid".data),
            .codeFence c (some "typescript".data)]) = 1) ∧
      (occursInL (placeholderFor 0) (mermaidMarkerHtml m ++ h) = false →
        occursInL (placeholderFor 0)
          (renderMarkdownF hl [.codeFence m (some "mermaid".data),
            .codeFence c (some "typescript".data)]) = false) := by
  have hmer : ∀ (text : List Char) (n : Nat),
      renderCodeToken text (some "mermaid".data) n = (mermaidMarkerHtml text, [], n) :=
    fun _ _ => rfl
  have htsc : ∀ (text : List Char) (n : Nat),
      renderCodeToken text (some "typescript".data) n =
        (placeholderFor n, [⟨placeholderFor n, text, "typescript".data⟩], n + 1) :=
    fun _ _ => rfl
  have hq : (renderTokens [.codeFence m (some "mermaid".data),
      .codeFence c (some "typescript".data)] 0).2 =
      [⟨placeholderFor 0, c, "typescript".data⟩] := by
    simp [renderTokens, hmer, htsc]
  have hhl : highlightCodeF hl c "typescript".data = h := by
    have hsl : hlLang "typescript".data = "typescript".data := by decide
    simp [highlightCodeF, hsl, hok]
  have hmain : renderMarkdownF hl [.codeFence m (some "mermaid".data),
      .codeFence c (some "typescript".data)] = mermaidMarkerHtml m ++ h := by
    unfold renderMarkdownF
    simp only [renderTokens, hmer, htsc, List.append_nil, List.nil_append,
      List.foldl_cons, List.foldl_nil]
    rw [hhl]
    have hrfa := replaceFirstL_append (placeholderFor 0) (mermaidMarkerHtml m) [] h hA
    rw [jsSubstitution_no_dollar _ _ _ h hd] at hrfa
    simpa using hrfa
  refine ⟨hq, hmain, ?_, ?_⟩
  · intro hocc
    rw [hmain]
    have hsplit : mermaidMarkerHtml m ++ h =
        "<pre class=\"mermaid-source\"".data ++
          (" data-diagram=\"".data ++ escapeQuotL (escapeHtmlL m) ++ "\">".data ++
            escapeHtmlL m ++ "</pre>".data ++ h) := by
      unfold mermaidMarkerHtml
      simp
    rw [hsplit]
    exact countOccurL_single _ _ (by decide) hocc
  · intro hocc
    rw [hmain]
    exact hocc

/-- Witness for C6 amended on a concrete mermaid+typescript document with a
succeeding, `$`-free highlighter output. -/
theorem renderMarkdown_mermaid_and_ts_witness :
    (renderTokens [.codeFence "graph TD".data (some "mermaid".data),
        .codeFence "let x = 1".data (some "typescript".data)] 0).2 =
        [⟨placeholderFor 0, "let x = 1".data, "typescript".data⟩] ∧
      renderMarkdownF (fun _ _ => Except.ok "<pre>HIGH</pre>".data)
          [.codeFence "graph TD".data (some "mermaid".data),
            .codeFence "let x = 1".data (some "typescript".data)] =
        mermaidMarkerHtml "graph TD".data ++ "<pre>HIGH</pre>".data ∧
      countOccurL "<pre class=\"mermaid-source\"".data
          (renderMarkdownF (fun _ _ => Except.ok "<pre>HIGH</pre>".data)
            [.codeFence "graph TD".data (some "mermaid".data),
              .codeFence "let x = 1".data (some "typescript".data)]) = 1 ∧
      occursInL (placeholderFor 0)
          (renderMarkdownF (fun _ _ => Except.ok "<pre>HIGH</pre>".data)
            [.codeFence "graph TD".data (some "mermaid".data),
              .codeFence "let x = 1".data (some "typescript".data)]) = false :=
  have main := renderMarkdown_mermaid_and_ts "graph TD".data "let x = 1".data
    "<pre>HIGH</pre>".data (fun _ _ => Except.ok "<pre>HIGH</pre>".data) rfl
    (by decide) (by decide)
  ⟨main.1, main.2.1, main.2.2.1 (by decide), main.2.2.2 (by decide)⟩

/-- Witness for C8 amended at the concrete path `docs/setup.md`. -/
theorem filePathToUrlPath_idempotent_amended_witness :
    hasMdSuffix (filePathToUrlPathL "docs/setup.md".data) = false ∧
      strEndsWithL (filePathToUrlPathL "docs/setup.md".data) "/index".data = false ∧
      filePathToUrlPathL (filePathToUrlPathL "docs/setup.md".data) =
        filePathToUrlPathL "docs/setup.md".data :=
  ⟨by decide, by decide, filePathToUrlPath_idempotent_amended _ (by decide) (by decide)⟩

end MdHost
